import Mathlib

/-!
romflip: bit-reversal of character-generator ROM images.

A shallow embedding of `public/roms/romflip.c` and the properties of its
lookup table and of its `main`.

Machine values are natural numbers (`unsigned int`, reduced modulo `2 ^ 32`
where a shift can overflow) and integers (`int`).  The process state is a
`World`: the global array `fliptable`, the bytes still to be read from the
standard input and the bytes written so far to the standard output.
-/

namespace Romflip

/-! ## Data model -/

/-- Number of bits of an `unsigned int`. -/
def UINT_BITS : Nat := 32

/-- The value `fgetc` returns at end of stream. -/
def EOF : Int := -1

/-- The observable state of the process. -/
structure World where
  /-- The global `unsigned int fliptable[256]`. -/
  fliptable : List Nat
  /-- Bytes of the standard input that have not been read yet. -/
  stdin : List Nat
  /-- Bytes written to the standard output so far, oldest first. -/
  stdout : List Nat
deriving DecidableEq, Repr

/-- The state at program start: the global array is zero-initialised, nothing
has been written. -/
def World.init (input : List Nat) : World :=
  { fliptable := List.replicate 256 0, stdin := input, stdout := [] }

/-- How a piece of the program can end. -/
inductive Outcome where
  /-- Control reached the end of the statement(s). -/
  | returned (w : World)
  /-- The process ended through `exit(status)`. -/
  | exited (status : Int) (w : World)
  /-- An array was indexed outside its bounds. -/
  | fault (w : World)
  /-- The loop was still running when the step budget ran out. -/
  | outOfFuel
deriving DecidableEq, Repr

/-- Sequencing: the continuation runs only if control came back. -/
def Outcome.andThen (o : Outcome) (k : World → Outcome) : Outcome :=
  match o with
  | .returned w => k w
  | .exited status w => .exited status w
  | .fault w => .fault w
  | .outOfFuel => .outOfFuel

/-! ## Control structure -/

/-- The loop `for (i = start; ...; i++) body` with `n` passes left to run. -/
def forLoop {σ : Type} (body : Nat → σ → σ) : Nat → Nat → σ → σ
  | 0, _, s => s
  | n + 1, i, s => forLoop body n (i + 1) (body i s)

/-- The loop `for (i = lo; i < hi; i++) body`. -/
def forRange {σ : Type} (lo hi : Nat) (body : Nat → σ → σ) (s : σ) : σ :=
  forLoop body (hi - lo) lo s

/-! ## Library calls -/

/-- The conversion `%4x`: lowercase hexadecimal, right-aligned in a field of
width 4 (wider values are not truncated). -/
def fmt4x (n : Nat) : List Char :=
  List.leftpad 4 ' ' (Nat.toDigits 16 n)

/-- The call `printf("c=%4x, flip=%4x\n", c, flip)`: text of the line. -/
def listingLine (c flip : Nat) : List Char :=
  ['c', '='] ++ fmt4x c ++ [',', ' ', 'f', 'l', 'i', 'p', '='] ++ fmt4x flip ++ [Char.ofNat 10]

/-- The call `printf("c=%4x, flip=%4x\n", c, flip)`. -/
def printfListing (c flip : Nat) (w : World) : World :=
  { w with stdout := w.stdout ++ (listingLine c flip).map Char.toNat }

/-- The call `fgetc(stdin)`: the next byte as an `unsigned char` converted to
`int`, or `EOF` when none is left. -/
def fgetc (w : World) : Int × World :=
  match w.stdin with
  | [] => (EOF, w)
  | b :: rest => (((b % 256 : Nat) : Int), { w with stdin := rest })

/-- The call `fputc(v, stdout)`: the value is written as an `unsigned char`. -/
def fputc (v : Nat) (w : World) : World :=
  { w with stdout := w.stdout ++ [v % 256] }

/-- The call `exit(status)`. -/
def exit (status : Int) (w : World) : Outcome :=
  .exited status w

/-! ## `fillfliptable` -/

/-- Body of the inner loop, on the pair `(reversed, unreversed)`:
`reversed = reversed << 1; reversed = reversed | (unreversed & 1);
unreversed = unreversed >> 1;`. -/
def flipStep (s : Nat × Nat) : Nat × Nat :=
  let reversed := (s.1 <<< 1) % 2 ^ UINT_BITS
  let reversed := reversed ||| (s.2 &&& 1)
  let unreversed := s.2 >>> 1
  (reversed, unreversed)

/-- The value of `reversed` after the inner loop, for the loop index `i`:
`reversed = 0; unreversed = i; for (j = 0; j<8; j++) {...}`. -/
def flipBits (i : Nat) : Nat :=
  (forRange 0 8 (fun _ s => flipStep s) (0, i % 2 ^ UINT_BITS)).1

/-- Body of the outer loop of `fillfliptable`. -/
def fillBody (i : Nat) (w : World) : World :=
  let reversed := flipBits i
  let w := printfListing i reversed w
  { w with fliptable := w.fliptable.set i reversed }

/-- The function `fillfliptable`. -/
def fillfliptable (w : World) : World :=
  forRange 0 256 fillBody w

/-! ## `main` -/

/-- The expression `fliptable[c]`; `none` when `c` is outside the array. -/
def lookup (w : World) (c : Int) : Option Nat :=
  if 0 ≤ c then w.fliptable[c.toNat]? else none

/-- The statement `c == fgetc(stdin);` on the local `c`: a byte is read and
compared with `c`, the result of the comparison is discarded.  Returns the
value of `c` after the statement and the new state. -/
def readCompare (c : Int) (w : World) : Int × World :=
  let r := fgetc w
  let _ := decide (c = r.1)
  (c, r.2)

/-- The loop `while (EOF != c) { fputc(fliptable[c],stdout); c == fgetc(stdin); }`.
The first argument bounds the number of passes through the body. -/
def streamLoop : Nat → Int → World → Outcome
  | 0, c, w => if EOF ≠ c then .outOfFuel else .returned w
  | fuel + 1, c, w =>
    if EOF ≠ c then
      match lookup w c with
      | none => .fault w
      | some v =>
        let w := fputc v w
        let s := readCompare c w
        streamLoop fuel s.1 s.2
    else .returned w

/-- The statements of `main` that follow `exit(0);`.  The local `c` is never
initialised: the argument `c` is the value it happens to hold. -/
def mainRest (fuel : Nat) (c : Int) (w : World) : Outcome :=
  let w := forRange 0 256 (fun i w => printfListing i (w.fliptable.getD i 0) w) w
  let s := readCompare c w
  streamLoop fuel s.1 s.2

/-- The function `main`, run on the standard input `input`.  `fuel` bounds the
passes of the `while` loop and `c` is the value of the uninitialised local. -/
def main (fuel : Nat) (c : Int) (input : List Nat) : Outcome :=
  let w := fillfliptable (World.init input)
  (exit 0 w).andThen (mainRest fuel c)

/-! ## Closed forms of the table and of the listing -/

/-- The bytes of `n` consecutive lines of the listing, the first for index `i`. -/
def listingFrom : Nat → Nat → List Nat
  | 0, _ => []
  | n + 1, i => (listingLine i (flipBits i)).map Char.toNat ++ listingFrom n (i + 1)

/-- The 256 entries that `fillfliptable` stores. -/
def flipTable : List Nat :=
  (List.range 256).map flipBits

/-- The bytes on the standard output when the run has ended, if it has. -/
def Outcome.stdout? : Outcome → Option (List Nat)
  | .returned w => some w.stdout
  | .exited _ w => some w.stdout
  | .fault w => some w.stdout
  | .outOfFuel => none

/-! ## The passes of the `while` loop -/

/-- One pass through the body of the `while` loop,
`fputc(fliptable[c],stdout); c == fgetc(stdin);`: the value of `c` and the
state after the pass, `none` when the index is outside the array. -/
def streamBody (c : Int) (w : World) : Option (Int × World) :=
  match lookup w c with
  | none => none
  | some v => some (readCompare c (fputc v w))

/-- The value of `c` and the state after `n` full passes of the `while` loop,
each entered through the test `EOF != c`; `none` when the loop has ended or
faulted before the `n`-th pass is complete. -/
def streamIter : Nat → Int → World → Option (Int × World)
  | 0, c, w => some (c, w)
  | n + 1, c, w =>
    if EOF ≠ c then
      match streamBody c w with
      | none => none
      | some s => streamIter n s.1 s.2
    else none

/-! ## The listing in the words of the specification -/

/-- The end-of-line character. -/
def newline : Char := Char.ofNat 10

/-- The sixteen lowercase hexadecimal digits, in order of value. -/
def hexDigits : List Char :=
  String.toList "0123456789" ++ String.toList "abcdef"

/-- The digits of `n` in base 16 put in front of `acc`, most significant
first; the first argument bounds the number of digits. -/
def lowerHexAux : Nat → Nat → List Char → List Char
  | 0, _, acc => acc
  | fuel + 1, n, acc =>
    let acc := hexDigits.getD (n % 16) '0' :: acc
    if n < 16 then acc else lowerHexAux fuel (n / 16) acc

/-- Specification: `n` in lowercase hexadecimal, without leading zeros. -/
def lowerHex (n : Nat) : List Char :=
  lowerHexAux (n + 1) n []

/-- Specification: a text right-aligned in a field of the given width, filled
with blanks on the left. -/
def rightAlign (width : Nat) (text : List Char) : List Char :=
  List.replicate (width - text.length) ' ' ++ text

/-- Specification of a line of the listing: the text `c=`, the index in
lowercase hexadecimal right-aligned in a field of width 4, the text `, flip=`,
the table entry in the same format, and a newline. -/
def specLine (i flip : Nat) : List Char :=
  String.toList "c=" ++ rightAlign 4 (lowerHex i) ++ String.toList ", flip="
    ++ rightAlign 4 (lowerHex flip) ++ [newline]

/-! ## The shift loop at an arbitrary width -/

/-- The pair `(reversed, unreversed)` after `width` passes of the body of the
inner loop, started from `reversed = 0; unreversed = x;`.  The inner loop of
`fillfliptable` is `flipIter 8`. -/
def flipIter (width x : Nat) : Nat × Nat :=
  forRange 0 width (fun _ s => flipStep s) (0, x)

set_option maxRecDepth 100000

/-! ## The loops of `fillfliptable` -/

/-- The array part of the outer loop only stores `flipBits k` at index `k`. -/
theorem forLoop_fillBody_fliptable (n i : Nat) (w : World) :
    (forLoop fillBody n i w).fliptable
      = forLoop (fun k t => t.set k (flipBits k)) n i w.fliptable := by
  induction n generalizing i w with
  | zero => rfl
  | succ n ih =>
    simp only [forLoop]
    rw [ih]
    rfl

/-- The outer loop does not read the standard input. -/
theorem forLoop_fillBody_stdin (n i : Nat) (w : World) :
    (forLoop fillBody n i w).stdin = w.stdin := by
  induction n generalizing i w with
  | zero => rfl
  | succ n ih =>
    simp only [forLoop]
    rw [ih]
    rfl

/-- Entry `k` after a loop that stores `f j` at every index `j` of `i .. i+n-1`. -/
theorem forLoop_set_getElem? (f : Nat → Nat) (n i : Nat) (t : List Nat) (k : Nat) :
    (forLoop (fun j t => t.set j (f j)) n i t)[k]?
      = if i ≤ k ∧ k < i + n ∧ k < t.length then some (f k) else t[k]? := by
  induction n generalizing i t with
  | zero =>
    have : ¬ (i ≤ k ∧ k < i + 0 ∧ k < t.length) := by omega
    simp only [forLoop, this, if_false]
  | succ n ih =>
    simp only [forLoop]
    rw [ih, List.length_set, List.getElem?_set]
    by_cases hk : i = k
    · subst hk
      have h1 : ¬ (i + 1 ≤ i ∧ i < i + 1 + n ∧ i < t.length) := by omega
      rw [if_neg h1, if_pos rfl]
      by_cases hl : i < t.length
      · have h2 : i ≤ i ∧ i < i + (n + 1) ∧ i < t.length := by omega
        rw [if_pos hl, if_pos h2]
      · have h2 : ¬ (i ≤ i ∧ i < i + (n + 1) ∧ i < t.length) := by omega
        have h3 : t.length ≤ i := by omega
        rw [if_neg hl, if_neg h2, List.getElem?_eq_none h3]
    · by_cases hc : i + 1 ≤ k ∧ k < i + 1 + n ∧ k < t.length
      · have h2 : i ≤ k ∧ k < i + (n + 1) ∧ k < t.length := by omega
        rw [if_pos hc, if_pos h2]
      · have h2 : ¬ (i ≤ k ∧ k < i + (n + 1) ∧ k < t.length) := by omega
        rw [if_neg hc, if_neg h2, if_neg hk]

/-- After `fillfliptable`, entry `i` of the array holds `flipBits i`. -/
theorem fillfliptable_getElem? (w : World) (hlen : w.fliptable.length = 256)
    (i : Nat) (hi : i < 256) :
    (fillfliptable w).fliptable[i]? = some (flipBits i) := by
  unfold fillfliptable forRange
  rw [forLoop_fillBody_fliptable, forLoop_set_getElem?]
  have h : 0 ≤ i ∧ i < 0 + (256 - 0) ∧ i < w.fliptable.length := by omega
  simp only [h, and_self, if_true]

/-- The array keeps its 256 entries. -/
theorem fillfliptable_length (w : World) (hlen : w.fliptable.length = 256) :
    (fillfliptable w).fliptable.length = 256 := by
  have h : ∀ (n i : Nat) (t : List Nat),
      (forLoop (fun k t => t.set k (flipBits k)) n i t).length = t.length := by
    intro n
    induction n with
    | zero => intro i t; rfl
    | succ n ih => intro i t; simp only [forLoop]; rw [ih, List.length_set]
  unfold fillfliptable forRange
  rw [forLoop_fillBody_fliptable, h, hlen]

/-- The inner loop on a byte: the result is the mirrored byte. -/
theorem flipBits_testBit : ∀ i < 256, ∀ k < 8, (flipBits i).testBit k = i.testBit (7 - k) := by
  decide

/-- The inner loop on a byte gives a byte, and applying it twice gives the
byte back. -/
theorem flipBits_byte : ∀ i < 256, flipBits i < 256 ∧ flipBits (flipBits i) = i := by
  decide

/-- The outer loop appends one line of the listing per pass. -/
theorem forLoop_fillBody_stdout (n i : Nat) (w : World) :
    (forLoop fillBody n i w).stdout = w.stdout ++ listingFrom n i := by
  induction n generalizing i w with
  | zero => simp only [forLoop, listingFrom, List.append_nil]
  | succ n ih =>
    simp only [forLoop, listingFrom]
    rw [ih, ← List.append_assoc]
    rfl

/-- Entry `k` of the closed-form table. -/
theorem flipTable_getElem? (k : Nat) :
    flipTable[k]? = if k < 256 then some (flipBits k) else none := by
  unfold flipTable
  rw [List.getElem?_map]
  by_cases hk : k < 256
  · rw [List.getElem?_range hk, if_pos hk]
    rfl
  · have hlen : (List.range 256).length ≤ k := by
      rw [List.length_range]
      omega
    rw [List.getElem?_eq_none hlen, if_neg hk]
    rfl

/-- The whole effect of `fillfliptable` on a state whose array has 256 entries. -/
theorem fillfliptable_eq (w : World) (hlen : w.fliptable.length = 256) :
    fillfliptable w
      = { fliptable := flipTable, stdin := w.stdin, stdout := w.stdout ++ listingFrom 256 0 } := by
  have h1 : (fillfliptable w).fliptable = flipTable := by
    apply List.ext_getElem?
    intro k
    unfold fillfliptable forRange
    rw [forLoop_fillBody_fliptable, forLoop_set_getElem?, flipTable_getElem?, hlen]
    by_cases hk : k < 256
    · have h : 0 ≤ k ∧ k < 0 + (256 - 0) ∧ k < 256 := by omega
      rw [if_pos h, if_pos hk]
    · have h : ¬ (0 ≤ k ∧ k < 0 + (256 - 0) ∧ k < 256) := by omega
      rw [if_neg h, if_neg hk, List.getElem?_eq_none (by omega)]
  have h2 : (fillfliptable w).stdin = w.stdin := forLoop_fillBody_stdin _ _ w
  have h3 : (fillfliptable w).stdout = w.stdout ++ listingFrom 256 0 :=
    forLoop_fillBody_stdout _ _ w
  rw [← h1, ← h2, ← h3]

/-- Every line of the listing of a byte table has 18 characters. -/
theorem listingLine_length : ∀ i < 256, (listingLine i (flipBits i)).length = 18 := by
  decide

/-- Lines for indices below 256 take 18 bytes each. -/
theorem listingFrom_length (n i : Nat) (h : i + n ≤ 256) :
    (listingFrom n i).length = 18 * n := by
  induction n generalizing i with
  | zero => rfl
  | succ n ih =>
    simp only [listingFrom, List.length_append, List.length_map]
    rw [ih (i + 1) (by omega), listingLine_length i (by omega)]
    omega

/-- Fixed points of the inner loop on bytes are the bit-palindromes. -/
theorem flipBits_fixed : ∀ i < 256,
    (flipBits i = i ↔ ∀ k < 4, i.testBit k = i.testBit (7 - k)) := by
  decide

/-- The inner loop sends a byte with the single bit `k` to the byte with the
single bit `7 - k`. -/
theorem flipBits_two_pow : ∀ k < 8, flipBits (2 ^ k) = 2 ^ (7 - k) := by
  decide

/-! ## The lookup table -/

/-- C1: after `fillfliptable` has run, for every index `i` in 0..255 the entry
`fliptable[i]` is the 8-bit bit-reversal of `i`: bit `k` of the entry equals
bit `7 - k` of `i` for every `k` in 0..7, and no bit above position 7 is set. -/
theorem fillfliptable_bit_reversal (w : World) (hlen : w.fliptable.length = 256)
    (i : Nat) (hi : i < 256) :
    ∃ v, (fillfliptable w).fliptable[i]? = some v
      ∧ (∀ k, k < 8 → v.testBit k = i.testBit (7 - k))
      ∧ (∀ k, 8 ≤ k → v.testBit k = false) := by
  refine ⟨flipBits i, fillfliptable_getElem? w hlen i hi, ?_, ?_⟩
  · intro k hk
    exact flipBits_testBit i hi k hk
  · intro k hk
    apply Nat.testBit_lt_two_pow
    calc flipBits i < 256 := (flipBits_byte i hi).1
      _ = 2 ^ 8 := by norm_num
      _ ≤ 2 ^ k := Nat.pow_le_pow_right (by norm_num) hk

/-- Instance of C1: entry `0x13` of the table built from the start state. -/
theorem fillfliptable_bit_reversal_witness :
    (World.init [7, 9]).fliptable.length = 256 ∧ 0x13 < 256
      ∧ ∃ v, (fillfliptable (World.init [7, 9])).fliptable[0x13]? = some v
        ∧ (∀ k, k < 8 → v.testBit k = (0x13).testBit (7 - k))
        ∧ (∀ k, 8 ≤ k → v.testBit k = false) :=
  ⟨by decide, by decide,
    fillfliptable_bit_reversal (World.init [7, 9]) (by decide) 0x13 (by decide)⟩

/-- C2: the table built by `fillfliptable` is an involution: for every `i` in
0..255 the entry `fliptable[i]` is a valid index (0..255) and
`fliptable[fliptable[i]] == i`. -/
theorem fillfliptable_involution (w : World) (hlen : w.fliptable.length = 256)
    (i : Nat) (hi : i < 256) :
    ∃ v, (fillfliptable w).fliptable[i]? = some v ∧ v < 256
      ∧ (fillfliptable w).fliptable[v]? = some i := by
  have hb := flipBits_byte i hi
  refine ⟨flipBits i, fillfliptable_getElem? w hlen i hi, hb.1, ?_⟩
  rw [fillfliptable_getElem? w hlen (flipBits i) hb.1, hb.2]

/-- Instance of C2: entry `0x2c` of the table built from the start state. -/
theorem fillfliptable_involution_witness :
    (World.init []).fliptable.length = 256 ∧ 0x2c < 256
      ∧ ∃ v, (fillfliptable (World.init [])).fliptable[0x2c]? = some v ∧ v < 256
        ∧ (fillfliptable (World.init [])).fliptable[v]? = some 0x2c :=
  ⟨by decide, by decide,
    fillfliptable_involution (World.init []) (by decide) 0x2c (by decide)⟩

/-! ## `main` -/

/-- The closed form of a run of `main`: it ends in `exit(0)` right after
`fillfliptable`. -/
theorem main_eq (fuel : Nat) (c : Int) (input : List Nat) :
    main fuel c input
      = .exited 0 { fliptable := flipTable, stdin := input, stdout := listingFrom 256 0 } := by
  have hlen : (World.init input).fliptable.length = 256 := List.length_replicate 256 0
  unfold main
  rw [fillfliptable_eq _ hlen]
  show Outcome.exited 0 { fliptable := flipTable, stdin := input, stdout := [] ++ listingFrom 256 0 }
    = _
  rw [List.nil_append]

/-- The listing is 4608 bytes long. -/
theorem listing_length : (listingFrom 256 0).length = 4608 :=
  listingFrom_length 256 0 (by omega)

/-- `fgetc` leaves the array alone. -/
theorem fgetc_fliptable (w : World) : (fgetc w).2.fliptable = w.fliptable := by
  unfold fgetc
  cases w.stdin <;> rfl

/-- The statement `c == fgetc(stdin);` leaves `c` and the array alone. -/
theorem readCompare_frame (c : Int) (w : World) :
    (readCompare c w).1 = c ∧ (readCompare c w).2.fliptable = w.fliptable :=
  ⟨rfl, fgetc_fliptable w⟩

/-- The second listing loop leaves the array alone. -/
theorem forLoop_printf_fliptable (n i : Nat) (w : World) :
    (forLoop (fun i w => printfListing i (w.fliptable.getD i 0) w) n i w).fliptable
      = w.fliptable := by
  induction n generalizing i w with
  | zero => rfl
  | succ n ih =>
    simp only [forLoop]
    rw [ih]
    rfl

/-- With `c` a valid index, hence different from `EOF`, the `while` loop is
still running after any number of passes, whatever the input. -/
theorem streamLoop_outOfFuel (c : Int) (h0 : 0 ≤ c) (h1 : c < 256) (fuel : Nat) (w : World)
    (hlen : w.fliptable.length = 256) : streamLoop fuel c w = .outOfFuel := by
  have hne : EOF ≠ c := by
    unfold EOF
    omega
  induction fuel generalizing w with
  | zero =>
    unfold streamLoop
    rw [if_pos hne]
  | succ fuel ih =>
    have hidx : c.toNat < w.fliptable.length := by omega
    have hlook : lookup w c = some (w.fliptable[c.toNat]) := by
      unfold lookup
      rw [if_pos h0, List.getElem?_eq_getElem hidx]
    unfold streamLoop
    rw [if_pos hne, hlook]
    show streamLoop fuel (readCompare c (fputc _ w)).1 (readCompare c (fputc _ w)).2 = _
    rw [(readCompare_frame c _).1]
    apply ih
    rw [(readCompare_frame c _).2]
    exact hlen

/-- With `c` equal to `EOF` the `while` loop is left at once, nothing written
and nothing read. -/
theorem streamLoop_EOF (fuel : Nat) (w : World) : streamLoop fuel EOF w = .returned w := by
  cases fuel <;> simp [streamLoop]

/-- C3, the code on the one-byte input `[0x41]`: `main` ends in `exit(0)` with
the byte still unread and the 4608 bytes of the listing on the standard output,
not the single byte `fliptable[0x41]`. -/
theorem main_one_byte_input (fuel : Nat) (c : Int) :
    main fuel c [0x41]
        = .exited 0 { fliptable := flipTable, stdin := [0x41], stdout := listingFrom 256 0 }
      ∧ (listingFrom 256 0).length = 4608
      ∧ listingFrom 256 0 ≠ [flipBits 0x41] := by
  refine ⟨main_eq fuel c [0x41], listing_length, ?_⟩
  intro h
  have hl := congrArg List.length h
  rw [listing_length] at hl
  exact absurd hl (by decide)

/-- C4, the code run twice from the one-byte stream `[0x01]`: the first run
writes the listing, the second run, fed the listing, writes the listing again,
which is 4608 bytes long and is not `[0x01]`. -/
theorem main_twice_one_byte (fuel fuel' : Nat) (c c' : Int) :
    ∃ w₁ w₂, main fuel c [0x01] = .exited 0 w₁
      ∧ main fuel' c' w₁.stdout = .exited 0 w₂
      ∧ w₂.stdout = w₁.stdout
      ∧ w₂.stdout.length = 4608
      ∧ w₂.stdout ≠ [0x01] := by
  refine ⟨_, _, main_eq fuel c [0x01], main_eq fuel' c' _, rfl, listing_length, ?_⟩
  intro h
  have hl := congrArg List.length h
  rw [listing_length] at hl
  exact absurd hl (by decide)

/-- C5, the code on the input `[0x01, 0x02, 0x80]`: `main` ends in `exit(0)`
with the three bytes unread and the 4608 bytes of the listing on the standard
output, not `[0x80, 0x40, 0x01]`. -/
theorem main_three_byte_scenario (fuel : Nat) (c : Int) :
    ∃ w, main fuel c [0x01, 0x02, 0x80] = .exited 0 w
      ∧ w.stdin = [0x01, 0x02, 0x80]
      ∧ w.stdout.length = 4608
      ∧ w.stdout ≠ [0x80, 0x40, 0x01] := by
  refine ⟨_, main_eq fuel c [0x01, 0x02, 0x80], rfl, listing_length, ?_⟩
  intro h
  have hl := congrArg List.length h
  rw [listing_length] at hl
  exact absurd hl (by decide)

/-- C6: for every input stream, `main` ends with exit status 0 right after the
table is built: the result does not depend on the step budget of the `while`
loop nor on the value of `c`, the whole input is still unread, the output is
the listing written by `fillfliptable`, and any two runs have the same
output. -/
theorem main_exits_after_table (fuel : Nat) (c : Int) (input : List Nat) :
    main fuel c input
        = .exited 0 { fliptable := flipTable, stdin := input, stdout := listingFrom 256 0 }
      ∧ (fillfliptable (World.init input)).stdout = listingFrom 256 0
      ∧ ∀ (fuel' : Nat) (c' : Int) (input' : List Nat),
          (main fuel' c' input').stdout? = (main fuel c input).stdout? := by
  refine ⟨main_eq fuel c input, ?_, ?_⟩
  · rw [fillfliptable_eq _ (List.length_replicate 256 0)]
    exact List.nil_append _
  · intro fuel' c' input'
    rw [main_eq, main_eq]
    rfl

/-- C7, the code of the `while` loop entered with `c` holding 0: for every
input stream, the empty one included, and every number of passes, the loop and
the statements of `main` that lead to it are still running; the loop does not
halt when the input is exhausted. -/
theorem streamLoop_runs_forever (fuel : Nat) (input : List Nat) :
    streamLoop fuel 0 (fillfliptable (World.init input)) = .outOfFuel
      ∧ mainRest fuel 0 (fillfliptable (World.init input)) = .outOfFuel := by
  have hlen : (fillfliptable (World.init input)).fliptable.length = 256 :=
    fillfliptable_length _ (List.length_replicate 256 0)
  refine ⟨streamLoop_outOfFuel 0 (by decide) (by decide) fuel _ hlen, ?_⟩
  unfold mainRest
  show streamLoop fuel (readCompare 0 _).1 (readCompare 0 _).2 = _
  rw [(readCompare_frame 0 _).1]
  apply streamLoop_outOfFuel 0 (by decide) (by decide)
  rw [(readCompare_frame 0 _).2]
  unfold forRange
  rw [forLoop_printf_fliptable]
  exact hlen

/-- C8: single-bit bytes map to the mirrored single-bit byte: for every `k` in
0..7, `fliptable[2^k] == 2^(7-k)`; in particular `fliptable[0x01] == 0x80` and
`fliptable[0x80] == 0x01`. -/
theorem fillfliptable_single_bit (w : World) (hlen : w.fliptable.length = 256) :
    (∀ k, k < 8 → (fillfliptable w).fliptable[2 ^ k]? = some (2 ^ (7 - k)))
      ∧ (fillfliptable w).fliptable[0x01]? = some 0x80
      ∧ (fillfliptable w).fliptable[0x80]? = some 0x01 := by
  have h : ∀ k, k < 8 → (fillfliptable w).fliptable[2 ^ k]? = some (2 ^ (7 - k)) := by
    intro k hk
    have hlt : 2 ^ k < 256 := by
      calc 2 ^ k < 2 ^ 8 := Nat.pow_lt_pow_right (by norm_num) hk
        _ = 256 := by norm_num
    rw [fillfliptable_getElem? w hlen _ hlt, flipBits_two_pow k hk]
  exact ⟨h, h 0 (by decide), h 7 (by decide)⟩

/-- Instance of C8: the table built from the start state on the input `[0x80]`. -/
theorem fillfliptable_single_bit_witness :
    (World.init [0x80]).fliptable.length = 256
      ∧ (∀ k, k < 8 →
          (fillfliptable (World.init [0x80])).fliptable[2 ^ k]? = some (2 ^ (7 - k)))
      ∧ (fillfliptable (World.init [0x80])).fliptable[0x01]? = some 0x80
      ∧ (fillfliptable (World.init [0x80])).fliptable[0x80]? = some 0x01 :=
  ⟨by decide, fillfliptable_single_bit (World.init [0x80]) (by decide)⟩

/-- C9: the fixed points are exactly the bit-palindromic bytes: for every `i`
in 0..255, `fliptable[i] == i` if and only if bit `k` of `i` equals bit `7 - k`
of `i` for `k` = 0..3; in particular `0x00`, `0xFF` and `0xA5` are fixed. -/
theorem fillfliptable_fixed_points (w : World) (hlen : w.fliptable.length = 256) :
    (∀ i, i < 256 →
        ((fillfliptable w).fliptable[i]? = some i
          ↔ ∀ k, k < 4 → i.testBit k = i.testBit (7 - k)))
      ∧ (fillfliptable w).fliptable[0x00]? = some 0x00
      ∧ (fillfliptable w).fliptable[0xFF]? = some 0xFF
      ∧ (fillfliptable w).fliptable[0xA5]? = some 0xA5 := by
  refine ⟨?_, ?_, ?_, ?_⟩
  · intro i hi
    rw [fillfliptable_getElem? w hlen i hi, Option.some_inj]
    exact flipBits_fixed i hi
  · rw [fillfliptable_getElem? w hlen _ (by decide)]
    rfl
  · rw [fillfliptable_getElem? w hlen _ (by decide)]
    rfl
  · rw [fillfliptable_getElem? w hlen _ (by decide)]
    rfl

/-- Instance of C9: the table built from the start state on the input `[0xA5]`. -/
theorem fillfliptable_fixed_points_witness :
    (World.init [0xA5]).fliptable.length = 256
      ∧ (∀ i, i < 256 →
          ((fillfliptable (World.init [0xA5])).fliptable[i]? = some i
            ↔ ∀ k, k < 4 → i.testBit k = i.testBit (7 - k)))
      ∧ (fillfliptable (World.init [0xA5])).fliptable[0x00]? = some 0x00
      ∧ (fillfliptable (World.init [0xA5])).fliptable[0xFF]? = some 0xFF
      ∧ (fillfliptable (World.init [0xA5])).fliptable[0xA5]? = some 0xA5 :=
  ⟨by decide, fillfliptable_fixed_points (World.init [0xA5]) (by decide)⟩

/-- C10: the table built by `fillfliptable` is a permutation of the byte values:
it has 256 entries, every entry lies in 0..255, distinct indices hold distinct
entries, and every value in 0..255 occurs as an entry. -/
theorem fillfliptable_permutation (w : World) (hlen : w.fliptable.length = 256) :
    (fillfliptable w).fliptable.length = 256
      ∧ (∀ i, i < 256 → ∃ v, (fillfliptable w).fliptable[i]? = some v ∧ v < 256)
      ∧ (∀ i j, i < 256 → j < 256 → i ≠ j →
          (fillfliptable w).fliptable[i]? ≠ (fillfliptable w).fliptable[j]?)
      ∧ (∀ v, v < 256 → ∃ i, i < 256 ∧ (fillfliptable w).fliptable[i]? = some v) := by
  refine ⟨fillfliptable_length w hlen, ?_, ?_, ?_⟩
  · intro i hi
    exact ⟨flipBits i, fillfliptable_getElem? w hlen i hi, (flipBits_byte i hi).1⟩
  · intro i j hi hj hij h
    rw [fillfliptable_getElem? w hlen i hi, fillfliptable_getElem? w hlen j hj,
      Option.some_inj] at h
    apply hij
    rw [← (flipBits_byte i hi).2, ← (flipBits_byte j hj).2, h]
  · intro v hv
    refine ⟨flipBits v, (flipBits_byte v hv).1, ?_⟩
    rw [fillfliptable_getElem? w hlen _ (flipBits_byte v hv).1, (flipBits_byte v hv).2]

/-- Instance of C10: the table built from the start state on the input `[1, 2, 3]`. -/
theorem fillfliptable_permutation_witness :
    (World.init [1, 2, 3]).fliptable.length = 256
      ∧ (fillfliptable (World.init [1, 2, 3])).fliptable.length = 256
      ∧ (∀ i, i < 256 →
          ∃ v, (fillfliptable (World.init [1, 2, 3])).fliptable[i]? = some v ∧ v < 256)
      ∧ (∀ i j, i < 256 → j < 256 → i ≠ j →
          (fillfliptable (World.init [1, 2, 3])).fliptable[i]?
            ≠ (fillfliptable (World.init [1, 2, 3])).fliptable[j]?)
      ∧ (∀ v, v < 256 →
          ∃ i, i < 256 ∧ (fillfliptable (World.init [1, 2, 3])).fliptable[i]? = some v) :=
  ⟨by decide, fillfliptable_permutation (World.init [1, 2, 3]) (by decide)⟩

/-! ## The reads of the `while` loop -/

/-- The statement `c == fgetc(stdin);` after a `fputc`, field by field. -/
theorem readCompare_fputc (c : Int) (v : Nat) (w : World) :
    readCompare c (fputc v w)
      = (c, { fliptable := w.fliptable, stdin := w.stdin.drop 1,
              stdout := w.stdout ++ [v % 256] }) := by
  obtain ⟨t, i, o⟩ := w
  cases i <;> rfl

/-- The statement `c == fgetc(stdin);` takes the next byte, if any, off the input. -/
theorem readCompare_stdin (c : Int) (w : World) :
    (readCompare c w).2.stdin = w.stdin.drop 1 := by
  obtain ⟨t, i, o⟩ := w
  cases i <;> rfl

/-- A pass of the loop that is entered and does not fault. -/
theorem streamIter_succ (n : Nat) (c : Int) (w : World) (v : Nat) (hne : EOF ≠ c)
    (hv : lookup w c = some v) :
    streamIter (n + 1) c w
      = streamIter n c { fliptable := w.fliptable, stdin := w.stdin.drop 1,
                         stdout := w.stdout ++ [v % 256] } := by
  have hb : streamBody c w = some (readCompare c (fputc v w)) := by
    unfold streamBody
    rw [hv]
  rw [streamIter, if_pos hne, hb, readCompare_fputc]

/-- Whatever the passes of the loop do, `c` keeps its value and the input is
advanced by one byte per pass. -/
theorem streamIter_some (n : Nat) (c : Int) (w : World) (c' : Int) (w' : World)
    (h : streamIter n c w = some (c', w')) :
    c' = c ∧ w'.stdin = w.stdin.drop n ∧ w'.fliptable = w.fliptable := by
  induction n generalizing w with
  | zero =>
    rw [streamIter, Option.some_inj, Prod.mk.injEq] at h
    rw [← h.1, ← h.2]
    exact ⟨rfl, rfl, rfl⟩
  | succ n ih =>
    by_cases hne : EOF ≠ c
    · cases hv : lookup w c with
      | none =>
        have hb : streamBody c w = none := by
          unfold streamBody
          rw [hv]
        rw [streamIter, if_pos hne, hb] at h
        exact absurd h (by simp)
      | some v =>
        rw [streamIter_succ n c w v hne hv] at h
        obtain ⟨h1, h2, h3⟩ := ih _ h
        refine ⟨h1, ?_, h3⟩
        rw [h2, List.drop_drop, Nat.add_comm]
    · rw [streamIter, if_neg hne] at h
      exact absurd h (by simp)

/-- With `c` a valid index the loop goes through any number of passes, each
writing `fliptable[c]` again. -/
theorem streamIter_valid (n : Nat) (c : Int) (h0 : 0 ≤ c) (w : World) (v : Nat)
    (hv : lookup w c = some v) :
    streamIter n c w
      = some (c, { fliptable := w.fliptable, stdin := w.stdin.drop n,
                   stdout := w.stdout ++ List.replicate n (v % 256) }) := by
  have hne : EOF ≠ c := by
    unfold EOF
    omega
  induction n generalizing w with
  | zero =>
    obtain ⟨t, i, o⟩ := w
    simp only [streamIter, List.drop_zero, List.replicate_zero, List.append_nil]
  | succ n ih =>
    have hv1 : lookup ⟨w.fliptable, w.stdin.drop 1, w.stdout ++ [v % 256]⟩ c = some v := hv
    rw [streamIter_succ n c w v hne hv, ih _ hv1, List.drop_drop, List.append_assoc,
      List.replicate_succ, Nat.add_comm]
    rfl

/-- A run of the loop is its first `n` passes followed by the rest of the run. -/
theorem streamLoop_streamIter (n fuel : Nat) (c : Int) (w : World) (c' : Int) (w' : World)
    (h : streamIter n c w = some (c', w')) :
    streamLoop (n + fuel) c w = streamLoop fuel c' w' := by
  induction n generalizing w with
  | zero =>
    rw [streamIter, Option.some_inj, Prod.mk.injEq] at h
    rw [← h.1, ← h.2, Nat.zero_add]
  | succ n ih =>
    by_cases hne : EOF ≠ c
    · cases hv : lookup w c with
      | none =>
        have hb : streamBody c w = none := by
          unfold streamBody
          rw [hv]
        rw [streamIter, if_pos hne, hb] at h
        exact absurd h (by simp)
      | some v =>
        rw [streamIter_succ n c w v hne hv] at h
        have hs : n + 1 + fuel = (n + fuel) + 1 := by omega
        rw [hs, streamLoop, if_pos hne, hv]
        show streamLoop (n + fuel) (readCompare c (fputc v w)).1 (readCompare c (fputc v w)).2 = _
        rw [readCompare_fputc]
        exact ih _ h
    · rw [streamIter, if_neg hne] at h
      exact absurd h (by simp)

/-- C11: in the stream loop of `main` the statements `c == fgetc(stdin);`
compare and do not assign.  Each one leaves `c` as it was and has on the state
the effect of the call `fgetc(stdin)` alone, which takes the next byte off the
input.  Hence after any number of passes of the loop `c` still holds its initial
value, the input has been advanced by one byte per pass, and the run goes on
with that same `c` in the `EOF` test; the byte written in every pass is
`fliptable[c]` for the initial `c`, whatever the input holds; and with `c`
equal to `EOF` the loop is left at once, whatever the input holds. -/
theorem streamLoop_c_never_assigned (c : Int) (w : World) :
    ((readCompare c w).1 = c ∧ (readCompare c w).2 = (fgetc w).2
        ∧ (readCompare c w).2.stdin = w.stdin.drop 1)
      ∧ (∀ b rest, w.stdin = b :: rest → (readCompare c w).2.stdin = rest)
      ∧ (∀ n c' w', streamIter n c w = some (c', w') →
          c' = c ∧ w'.stdin = w.stdin.drop n
            ∧ ∀ fuel, streamLoop (n + fuel) c w = streamLoop fuel c w')
      ∧ (∀ v, lookup w c = some v → ∀ n,
          streamIter n c w
            = some (c, { fliptable := w.fliptable, stdin := w.stdin.drop n,
                         stdout := w.stdout ++ List.replicate n (v % 256) }))
      ∧ (c = EOF → ∀ fuel, streamLoop fuel c w = .returned w) := by
  refine ⟨⟨rfl, rfl, readCompare_stdin c w⟩, ?_, ?_, ?_, ?_⟩
  · intro b rest h
    rw [readCompare_stdin, h]
    rfl
  · intro n c' w' h
    obtain ⟨h1, h2, _⟩ := streamIter_some n c w c' w' h
    refine ⟨h1, h2, ?_⟩
    intro fuel
    rw [streamLoop_streamIter n fuel c w c' w' h, h1]
  · intro v hv n
    have h0 : 0 ≤ c := by
      by_contra hc
      unfold lookup at hv
      rw [if_neg hc] at hv
      exact absurd hv (by simp)
    exact streamIter_valid n c h0 w v hv
  · intro hc fuel
    rw [hc]
    exact streamLoop_EOF fuel w

/-- Instance of C11: two passes of the loop entered with `c` holding 5 on the
input `[0x41, 0x42, 0x43]` leave `c` at 5, take two bytes off the input and
write `fliptable[5]` twice. -/
theorem streamLoop_c_never_assigned_witness :
    lookup ⟨flipTable, [0x41, 0x42, 0x43], []⟩ 5 = some 0xA0
      ∧ streamIter 2 5 ⟨flipTable, [0x41, 0x42, 0x43], []⟩
          = some (5, ⟨flipTable, [0x43], [0xA0, 0xA0]⟩) :=
  ⟨by decide,
    (streamLoop_c_never_assigned 5 ⟨flipTable, [0x41, 0x42, 0x43], []⟩).2.2.2.1
      0xA0 (by decide) 2⟩

/-! ## The listing -/

/-- On the table, the line that `printf` writes is the line of the
specification; it has 18 characters, the last one the only newline. -/
theorem specLine_flipBits : ∀ i < 256,
    specLine i (flipBits i) = listingLine i (flipBits i)
      ∧ (specLine i (flipBits i)).length = 18
      ∧ (specLine i (flipBits i)).getLast? = some newline
      ∧ (specLine i (flipBits i)).count newline = 1 := by
  decide

/-- Consecutive lines of the listing, as a concatenation in ascending order. -/
theorem listingFrom_eq_flatMap (f : Nat → List Nat) (n i : Nat)
    (hf : ∀ k, i ≤ k → k < i + n → f k = (listingLine k (flipBits k)).map Char.toNat) :
    listingFrom n i = (List.range' i n).flatMap f := by
  induction n generalizing i with
  | zero => rfl
  | succ n ih =>
    rw [listingFrom, List.range'_succ, List.flatMap_cons, hf i (by omega) (by omega),
      ih (i + 1) (fun k h1 h2 => hf k (by omega) (by omega))]

/-- After `fillfliptable`, reading entry `i` with a default gives `flipBits i`. -/
theorem fillfliptable_getD (w : World) (hlen : w.fliptable.length = 256)
    (i : Nat) (hi : i < 256) :
    (fillfliptable w).fliptable.getD i 0 = flipBits i := by
  rw [List.getD_eq_getElem?_getD, fillfliptable_getElem? w hlen i hi]
  rfl

/-- C12: the listing written by `fillfliptable` is the concatenation, in
ascending order of `i` = 0..255, of 256 lines, where line `i` is the text `c=`
followed by `i` in lowercase hexadecimal right-aligned in a field of width 4,
then `, flip=` followed by `fliptable[i]` in the same format, then a newline;
both values are below 0x100 and every line is exactly 18 characters long, so
the listing is 4608 bytes; the last character of a line is its only newline. -/
theorem fillfliptable_listing (w : World) (hlen : w.fliptable.length = 256) :
    (fillfliptable w).stdout
        = w.stdout ++ (List.range 256).flatMap
            (fun i => (specLine i ((fillfliptable w).fliptable.getD i 0)).map Char.toNat)
      ∧ (List.range 256).length = 256
      ∧ (fillfliptable w).stdout.length = w.stdout.length + 256 * 18
      ∧ ∀ i, i < 256 →
          ∃ v, (fillfliptable w).fliptable[i]? = some v
            ∧ (fillfliptable w).fliptable.getD i 0 = v
            ∧ i < 0x100 ∧ v < 0x100
            ∧ (specLine i v).length = 18
            ∧ (specLine i v).getLast? = some newline
            ∧ (specLine i v).count newline = 1 := by
  have hout : (fillfliptable w).stdout = w.stdout ++ listingFrom 256 0 := by
    rw [fillfliptable_eq w hlen]
  have hget : ∀ i, i < 256 → (fillfliptable w).fliptable[i]? = some (flipBits i) :=
    fun i hi => fillfliptable_getElem? w hlen i hi
  have hgetD : ∀ i, i < 256 → (fillfliptable w).fliptable.getD i 0 = flipBits i :=
    fun i hi => fillfliptable_getD w hlen i hi
  generalize fillfliptable w = w' at hout hget hgetD ⊢
  have hl := listingFrom_eq_flatMap
    (fun i => (specLine i (w'.fliptable.getD i 0)).map Char.toNat) 256 0
    (by
      intro k _ hk
      have hk256 : k < 256 := by omega
      show (specLine k (w'.fliptable.getD k 0)).map Char.toNat = _
      rw [hgetD k hk256, (specLine_flipBits k hk256).1])
  refine ⟨?_, List.length_range 256, ?_, ?_⟩
  · rw [hout, hl, List.range_eq_range']
  · rw [hout, List.length_append, listing_length]
  · intro i hi
    have hs := specLine_flipBits i hi
    exact ⟨flipBits i, hget i hi, hgetD i hi, hi, (flipBits_byte i hi).1, hs.2.1, hs.2.2.1,
      hs.2.2.2⟩

/-- Instance of C12: the listing written from the start state on the input
`[0x0c]`. -/
theorem fillfliptable_listing_witness :
    (World.init [0x0c]).fliptable.length = 256
      ∧ (fillfliptable (World.init [0x0c])).stdout.length
          = (World.init [0x0c]).stdout.length + 256 * 18 :=
  ⟨by decide, (fillfliptable_listing (World.init [0x0c]) (by decide)).2.2.1⟩

/-! ## The shift loop -/

/-- Bit `k` of the number 1. -/
theorem testBit_one_eq (k : Nat) : (1 : Nat).testBit k = decide (k = 0) := by
  cases k with
  | zero => rfl
  | succ k =>
    rw [Nat.testBit_succ]
    simp

/-- One pass of the inner loop, while the accumulator still fits an
`unsigned int`: the `j` bits reversed so far become `j + 1`. -/
theorem flipStep_inv (x j : Nat) (s : Nat × Nat) (hj : j < UINT_BITS) (hr : s.1 < 2 ^ j)
    (hu : s.2 = x >>> j) (hb : ∀ k, k < j → s.1.testBit k = x.testBit (j - 1 - k)) :
    (flipStep s).1 < 2 ^ (j + 1) ∧ (flipStep s).2 = x >>> (j + 1)
      ∧ ∀ k, k < j + 1 → (flipStep s).1.testBit k = x.testBit (j + 1 - 1 - k) := by
  have hshift : s.1 <<< 1 < 2 ^ (j + 1) := by
    rw [Nat.shiftLeft_eq, Nat.pow_succ]
    omega
  have hle : 2 ^ (j + 1) ≤ 2 ^ UINT_BITS :=
    Nat.pow_le_pow_right (by decide) (by omega)
  have hmod : (s.1 <<< 1) % 2 ^ UINT_BITS = s.1 <<< 1 :=
    Nat.mod_eq_of_lt (by omega)
  have h1 : (flipStep s).1 = s.1 <<< 1 ||| (s.2 &&& 1) := by
    show (s.1 <<< 1) % 2 ^ UINT_BITS ||| (s.2 &&& 1) = _
    rw [hmod]
  have h2 : (flipStep s).2 = s.2 >>> 1 := rfl
  refine ⟨?_, ?_, ?_⟩
  · rw [h1]
    exact Nat.or_lt_two_pow hshift (Nat.and_lt_two_pow _ (Nat.one_lt_two_pow (by omega)))
  · rw [h2, hu, Nat.shiftRight_add]
  · intro k hk
    rw [h1, Nat.testBit_or, Nat.testBit_shiftLeft, Nat.testBit_and, testBit_one_eq, hu,
      Nat.testBit_shiftRight]
    cases k with
    | zero => simp
    | succ k =>
      have hk' : k < j := by omega
      have hidx : j + 1 - 1 - (k + 1) = j - 1 - k := by omega
      rw [hidx, ← hb k hk']
      simp

/-- The inner loop run for `n` more passes, while the accumulator still fits
an `unsigned int`. -/
theorem forLoop_flipStep_inv (x n : Nat) : ∀ (i j : Nat) (s : Nat × Nat),
    j + n ≤ UINT_BITS → s.1 < 2 ^ j → s.2 = x >>> j →
    (∀ k, k < j → s.1.testBit k = x.testBit (j - 1 - k)) →
    (forLoop (fun _ s => flipStep s) n i s).1 < 2 ^ (j + n)
      ∧ (forLoop (fun _ s => flipStep s) n i s).2 = x >>> (j + n)
      ∧ ∀ k, k < j + n →
          (forLoop (fun _ s => flipStep s) n i s).1.testBit k = x.testBit (j + n - 1 - k) := by
  induction n with
  | zero =>
    intro i j s _ hr hu hb
    exact ⟨hr, hu, hb⟩
  | succ n ih =>
    intro i j s hjn hr hu hb
    obtain ⟨h1, h2, h3⟩ := flipStep_inv x j s (by omega) hr hu hb
    have hadd : j + (n + 1) = j + 1 + n := by omega
    rw [hadd]
    exact ih (i + 1) (j + 1) (flipStep s) (by omega) h1 h2 h3

/-- C13 as stated fails at width 33: the byte `x = 1` is below `2 ^ 33`, but
after 33 passes its bit has been shifted out of the 32-bit `reversed`, which
is 0, while bit 32 of the 33-bit reversal of 1 is bit 0 of 1, which is set. -/
theorem flipIter_width_33 :
    flipIter 33 1 = (0, 0)
      ∧ ¬ (∀ w x, x < 2 ^ w →
            (flipIter w x).2 = 0 ∧ (flipIter w x).1 < 2 ^ w
              ∧ ∀ k, k < w → (flipIter w x).1.testBit k = x.testBit (w - 1 - k)) := by
  refine ⟨by decide, ?_⟩
  intro h
  have h32 := (h 33 1 (by decide)).2.2 32 (by decide)
  revert h32
  decide

/-- C13, amended: the shift-accumulate step of `fillfliptable` is correct for
every bit width up to that of `unsigned int`: for every `w ≤ 32` and every
`x < 2 ^ w`, `w` passes of the step from `reversed = 0`, `unreversed = x` end
with `unreversed = 0` and `reversed` below `2 ^ w` with bit `k` equal to bit
`w - 1 - k` of `x` for every `k < w`; the inner loop of the code is the
instance `w = 8`. -/
theorem flipIter_reverses (w x : Nat) (hw : w ≤ UINT_BITS) (hx : x < 2 ^ w) :
    (flipIter w x).2 = 0
      ∧ (flipIter w x).1 < 2 ^ w
      ∧ (∀ k, k < w → (flipIter w x).1.testBit k = x.testBit (w - 1 - k))
      ∧ flipBits x = (flipIter 8 x).1 := by
  have h := forLoop_flipStep_inv x w 0 0 (0, x) (by omega) Nat.one_pos rfl
    (fun k hk => absurd hk (Nat.not_lt_zero k))
  rw [Nat.zero_add] at h
  obtain ⟨h1, h2, h3⟩ := h
  have hx32 : x < 2 ^ UINT_BITS :=
    Nat.lt_of_lt_of_le hx (Nat.pow_le_pow_right (by decide) hw)
  refine ⟨?_, h1, h3, ?_⟩
  · show (forLoop (fun _ s => flipStep s) (w - 0) 0 (0, x)).2 = 0
    rw [Nat.sub_zero, h2, Nat.shiftRight_eq_div_pow]
    exact Nat.div_eq_of_lt hx
  · show (forRange 0 8 (fun _ s => flipStep s) (0, x % 2 ^ UINT_BITS)).1 = _
    rw [Nat.mod_eq_of_lt hx32]
    rfl

/-- Instance of C13, amended: the code's width 8 at the byte `0x13`. -/
theorem flipIter_reverses_witness :
    8 ≤ UINT_BITS ∧ 0x13 < 2 ^ 8
      ∧ (flipIter 8 0x13).2 = 0
      ∧ (flipIter 8 0x13).1 < 2 ^ 8
      ∧ (∀ k, k < 8 → (flipIter 8 0x13).1.testBit k = (0x13).testBit (8 - 1 - k))
      ∧ flipBits 0x13 = (flipIter 8 0x13).1 :=
  ⟨by decide, by decide, flipIter_reverses 8 0x13 (by decide) (by decide)⟩

/-! ## The table and the bitwise operations -/

/-- A byte whose bits mirror those of the byte `a` is `flipBits a`. -/
theorem flipBits_ext (a v : Nat) (ha : a < 256) (hv : v < 256)
    (h : ∀ k, k < 8 → v.testBit k = a.testBit (7 - k)) : flipBits a = v := by
  apply Nat.eq_of_testBit_eq
  intro i
  by_cases hi : i < 8
  · rw [flipBits_testBit a ha i hi, h i hi]
  · have hpow : 2 ^ 8 ≤ 2 ^ i := Nat.pow_le_pow_right (by decide) (by omega)
    have h256 : (256 : Nat) = 2 ^ 8 := by decide
    have hf : flipBits a < 2 ^ i := by
      have := (flipBits_byte a ha).1
      omega
    have hv' : v < 2 ^ i := by omega
    rw [Nat.testBit_lt_two_pow hf, Nat.testBit_lt_two_pow hv']

/-- C14: the table built by `fillfliptable` is a homomorphism for the bitwise
operations: for all `a`, `b` in 0..255, `fliptable[a | b] == fliptable[a] |
fliptable[b]`, `fliptable[a & b] == fliptable[a] & fliptable[b]` and
`fliptable[a ^ b] == fliptable[a] ^ fliptable[b]`; consequently
`fliptable[a ^ 0xFF] == fliptable[a] ^ 0xFF`. -/
theorem fillfliptable_bitwise_hom (w : World) (hlen : w.fliptable.length = 256)
    (a b : Nat) (ha : a < 256) (hb : b < 256) :
    ∃ va vb, (fillfliptable w).fliptable[a]? = some va
      ∧ (fillfliptable w).fliptable[b]? = some vb
      ∧ (fillfliptable w).fliptable[a ||| b]? = some (va ||| vb)
      ∧ (fillfliptable w).fliptable[a &&& b]? = some (va &&& vb)
      ∧ (fillfliptable w).fliptable[a ^^^ b]? = some (va ^^^ vb)
      ∧ (fillfliptable w).fliptable[a ^^^ 0xFF]? = some (va ^^^ 0xFF) := by
  have ha8 : a < 2 ^ 8 := ha
  have hb8 : b < 2 ^ 8 := hb
  have hfa : flipBits a < 2 ^ 8 := (flipBits_byte a ha).1
  have hfb : flipBits b < 2 ^ 8 := (flipBits_byte b hb).1
  have hor : a ||| b < 256 := Nat.or_lt_two_pow ha8 hb8
  have hand : a &&& b < 256 := Nat.and_lt_two_pow a hb8
  have hxor : a ^^^ b < 256 := Nat.xor_lt_two_pow ha8 hb8
  have hff : (0xFF : Nat) < 256 := by decide
  have hfor : flipBits (a ||| b) = flipBits a ||| flipBits b :=
    flipBits_ext _ _ hor (Nat.or_lt_two_pow hfa hfb) (fun k hk => by
      rw [Nat.testBit_or, Nat.testBit_or, flipBits_testBit a ha k hk,
        flipBits_testBit b hb k hk])
  have hfand : flipBits (a &&& b) = flipBits a &&& flipBits b :=
    flipBits_ext _ _ hand (Nat.and_lt_two_pow _ hfb) (fun k hk => by
      rw [Nat.testBit_and, Nat.testBit_and, flipBits_testBit a ha k hk,
        flipBits_testBit b hb k hk])
  have hxor_gen : ∀ c, c < 256 → flipBits (a ^^^ c) = flipBits a ^^^ flipBits c := by
    intro c hc
    have hc8 : c < 2 ^ 8 := hc
    have hfc : flipBits c < 2 ^ 8 := (flipBits_byte c hc).1
    exact flipBits_ext _ _ (Nat.xor_lt_two_pow ha8 hc8) (Nat.xor_lt_two_pow hfa hfc)
      (fun k hk => by
        rw [Nat.testBit_xor, Nat.testBit_xor, flipBits_testBit a ha k hk,
          flipBits_testBit c hc k hk])
  have hfff : flipBits 0xFF = 0xFF := by decide
  refine ⟨flipBits a, flipBits b, fillfliptable_getElem? w hlen a ha,
    fillfliptable_getElem? w hlen b hb, ?_, ?_, ?_, ?_⟩
  · rw [fillfliptable_getElem? w hlen _ hor, hfor]
  · rw [fillfliptable_getElem? w hlen _ hand, hfand]
  · rw [fillfliptable_getElem? w hlen _ hxor, hxor_gen b hb]
  · rw [fillfliptable_getElem? w hlen _ (Nat.xor_lt_two_pow ha8 hff), hxor_gen 0xFF hff, hfff]

/-- Instance of C14: the bytes `0x35` and `0x0e` in the table built from the
start state. -/
theorem fillfliptable_bitwise_hom_witness :
    (World.init [0x35, 0x0e]).fliptable.length = 256 ∧ 0x35 < 256 ∧ 0x0e < 256
      ∧ ∃ va vb, (fillfliptable (World.init [0x35, 0x0e])).fliptable[0x35]? = some va
        ∧ (fillfliptable (World.init [0x35, 0x0e])).fliptable[0x0e]? = some vb
        ∧ (fillfliptable (World.init [0x35, 0x0e])).fliptable[0x35 ||| 0x0e]? = some (va ||| vb)
        ∧ (fillfliptable (World.init [0x35, 0x0e])).fliptable[0x35 &&& 0x0e]? = some (va &&& vb)
        ∧ (fillfliptable (World.init [0x35, 0x0e])).fliptable[0x35 ^^^ 0x0e]? = some (va ^^^ vb)
        ∧ (fillfliptable (World.init [0x35, 0x0e])).fliptable[0x35 ^^^ 0xFF]?
            = some (va ^^^ 0xFF) :=
  ⟨by decide, by decide, by decide,
    fillfliptable_bitwise_hom (World.init [0x35, 0x0e]) (by decide) 0x35 0x0e
      (by decide) (by decide)⟩

end Romflip
